import Mathlib

/-!
Verification of the msgqueue work-queue protocol (mongo backend).

Shallow embedding of `msgqueue/backends/mongo/client.py` and
`msgqueue/backends/queue.py`: the Message/Agent data model, the backing
store (a per-queue collection keyed by name plus a `system` collection of
Agent records), the client operations (`enqueue`, `dequeue`,
`mark_actioned_all`, `mark_error`, `reply` with rollback), the pacemaker
heartbeat operations, the `Protected` signal guard and the `RecordQueue`
transaction recorder.

Timestamps (`datetime.utcnow()`) are modelled as natural numbers supplied
to each operation as an explicit `now` argument.  Store documents are the
`Message` records themselves.
-/

/-- The `Message` dataclass of `msgqueue/backends/queue.py` (one store
document).  The Python field `namespace` is called `nspace` here because
`namespace` is a Lean keyword.  `mtype` is `Option Int` because `reply`
passes `mtype=None` through to `enqueue`, which stores it as-is. -/
structure Message where
  uid : Nat
  time : Nat
  mtype : Option Int
  read : Bool
  read_time : Option Nat
  actioned : Bool
  actioned_time : Option Nat
  replying_to : Option Nat
  message : String
  retry : Nat
  error : Option String
  nspace : Option String := none
  heartbeat : Option Nat := none
  g0 : Option String := none
  g1 : Option String := none
deriving DecidableEq

/-- The `Agent` dataclass of `msgqueue/backends/queue.py` (one `system`
collection document).  Python's `namespace` field is `nspace` here. -/
structure Agent where
  uid : Nat
  time : Nat
  agent : String
  heartbeat : Nat
  alive : Bool
  message : Option Nat
  nspace : Option String := none
  queue : Option String := none
deriving DecidableEq

/-- The shared database: the per-queue collections (`db[queue]`), the
`system` collection of Agent records, and the store-side uid counter
(mongo assigns `inserted_id`; modelled as a counter). -/
structure DB where
  queues : List (String × List Message)
  system : List Agent
  nextUid : Nat
deriving DecidableEq

/-- Read a collection by queue name (`self.db[queue]`); a collection that
was never written is empty. -/
def getColl (db : DB) (q : String) : List Message :=
  match db.queues.find? (fun kv => kv.1 == q) with
  | some kv => kv.2
  | none => []

/-- Write a collection by queue name. -/
def setColl (db : DB) (q : String) (c : List Message) : DB :=
  { db with queues := (q, c) :: db.queues }

/-- Write the `system` collection of Agent records. -/
def setSystem (db : DB) (s : List Agent) : DB :=
  { db with system := s }

/-- Advance the store-side uid counter. -/
def setNextUid (db : DB) (n : Nat) : DB :=
  { db with nextUid := n }

/-- Python `MongoClient._queue_exist`: whether the queue collection exists. -/
def queueExists (db : DB) (q : String) : Bool :=
  (db.queues.find? (fun kv => kv.1 == q)).isSome

/-- Modelled from the spec: `new_queue` (from
`msgqueue/backends/mongo/server.py`, which is not in the sources) creates
the queue collection for a queue name that does not exist yet. -/
def new_queue (db : DB) (q : String) : DB :=
  setColl db q []

/-- Mongo `update_one` / `find_one_and_update` without sort: update the
first document matching the filter, leave the rest unchanged. -/
def updateOne {α : Type} (p : α → Bool) (upd : α → α) : List α → List α
  | [] => []
  | x :: xs => if p x then upd x :: xs else x :: updateOne p upd xs

/-- Modelled from the spec: the Backing Store's bulk "find all matching a
uid-set filter, apply update" primitive (the `find_and_modify` call sites
of `mark_actioned_all` and `_rollback_actioned_all`): apply the update to
every document matching the filter. -/
def updateAll {α : Type} (p : α → Bool) (upd : α → α) (l : List α) : List α :=
  l.map (fun x => if p x then upd x else x)

/-- The `$in` uid-set filter built by `mark_actioned_all` and
`_rollback_actioned_all`: `{'_id': {'$in': list(map(lambda m_ m.uid, messages))}}`. -/
def uidIn (msgs : List Message) (u : Nat) : Bool :=
  (msgs.map Message.uid).contains u

/-- Index and document of the first document matching the filter among
those with minimal `time` (mongo `find_one_and_update` with
`sort=[('time', ASCENDING)]`). -/
def selectOldestIdx (p : Message → Bool) : List Message → Option (Nat × Message)
  | [] => none
  | m :: ms =>
    match selectOldestIdx p ms with
    | none => if p m then some (0, m) else none
    | some (i, b) =>
      if p m && decide (m.time ≤ b.time) then some (0, m) else some (i + 1, b)

/-- Mongo `find_one_and_update(query, update, sort=time ascending,
return_document=AFTER)`: atomically select the oldest matching document,
apply the update to it, and return the updated document. -/
def findOneAndUpdateSorted (p : Message → Bool) (upd : Message → Message)
    (coll : List Message) : Option Message × List Message :=
  match selectOldestIdx p coll with
  | none => (none, coll)
  | some (i, m) => (some (upd m), coll.set i (upd m))

/-- The query built by `MongoClient.dequeue` for the `mtype` argument:
`None` adds no filter, an `int` adds an equality filter, a `list`/`tuple`
adds an `$in` filter. -/
inductive MTypeArg where
  | noneArg : MTypeArg
  | intArg : Int → MTypeArg
  | listArg : List Int → MTypeArg
deriving DecidableEq

/-- Whether a stored `mtype` value passes the `mtype` part of the dequeue
query. -/
def matchesMType : MTypeArg → Option Int → Bool
  | MTypeArg.noneArg, _ => true
  | MTypeArg.intArg n, v => v == some n
  | MTypeArg.listArg l, v =>
    match v with
    | some x => l.contains x
    | none => false

/-- The full dequeue query of `MongoClient.dequeue`: `read = False`, plus
the optional namespace equality filter, plus the optional mtype filter. -/
def eligible (ns : Option String) (mt : MTypeArg) (m : Message) : Bool :=
  (!m.read) &&
    (match ns with
     | none => true
     | some v => m.nspace == some v) &&
    matchesMType mt m.mtype

/-- The `$set` applied by `dequeue`: `read = True, read_time = now`. -/
def claimUpd (now : Nat) (m : Message) : Message :=
  { m with read := true, read_time := some now }

/-- The in-memory state of a `MongoQueuePacemaker`: `agent_id` (set by
`register_agent`), `name` and `message` (set by `register_message`;
`unregister_message` does not clear them). -/
structure PMState where
  agentId : Option Nat
  name : Option String
  message : Option Message
deriving DecidableEq

/-- Mongo `update_one` on the `system` collection targeting `{'_id': agent_id}`. -/
def updateAgentOne (system : List Agent) (aid : Option Nat) (upd : Agent → Agent) :
    List Agent :=
  updateOne (fun a => aid == some a.uid) upd system

/-- Python `MongoQueuePacemaker.update_heartbeat`: when a message is registered,
refresh that message's `heartbeat` field in its queue collection; when no
message is registered, do nothing.  It never touches the Agent record. -/
def pm_update_heartbeat (db : DB) (pm : PMState) (now : Nat) : DB :=
  match pm.message with
  | none => db
  | some m =>
    let qn := pm.name.getD ""
    setColl db qn
      (updateOne (fun x => x.uid == m.uid)
        (fun x => { x with heartbeat := some now }) (getColl db qn))

/-- Python `MongoQueuePacemaker.register_message`: on `None` return immediately;
otherwise point the Agent record at the message, remember the queue name
and message, and refresh the heartbeat. -/
def pm_register_message (db : DB) (pm : PMState) (q : String) (msg : Option Message)
    (now : Nat) : Option Message × DB × PMState :=
  match msg with
  | none => (none, db, pm)
  | some m =>
    let db1 := setSystem db
      (updateAgentOne db.system pm.agentId
        (fun a => { a with message := some m.uid, nspace := m.nspace, heartbeat := now }))
    let pm' := { pm with name := some q, message := some m }
    (some m, pm_update_heartbeat db1 pm' now, pm')

/-- Python `MongoQueuePacemaker.unregister_message`: clear the `message` pointer
of the Agent record and refresh its heartbeat; the in-memory pacemaker
fields are left as they are (the source does not reset `self.message`). -/
def pm_unregister_message (db : DB) (pm : PMState) (now : Nat) : DB :=
  setSystem db
    (updateAgentOne db.system pm.agentId
      (fun a => { a with message := none, heartbeat := now }))

/-- Python `MessageQueue._unregister_message`: forward to the pacemaker when one
is attached (`if self.heartbeat_monitor:`). -/
def clientUnregister (db : DB) (pm : Option PMState) (now : Nat) : DB :=
  match pm with
  | none => db
  | some p => pm_unregister_message db p now

/-- Python `MongoClient.dequeue`: one atomic `find_one_and_update` (the claim),
then `_register_message` with the parsed result.  `_parse` (from
`msgqueue/backends/mongo/util.py`, not in the sources) is modelled from
the spec as the store-document-to-Message conversion, which is the
identity here. -/
def clientDequeue (db : DB) (pm : Option PMState) (now : Nat) (q : String)
    (ns : Option String) (mt : MTypeArg) : Option Message × DB × Option PMState :=
  match findOneAndUpdateSorted (eligible ns mt) (claimUpd now) (getColl db q) with
  | (none, _) => (none, db, pm)
  | (some m, coll') =>
    let db1 := setColl db q coll'
    match pm with
    | none => (some m, db1, none)
    | some p =>
      match pm_register_message db1 p q (some m) now with
      | (r, db2, p') => (r, db2, some p')

/-- Python `MongoClient.enqueue`: create the queue when absent (via the
spec-modelled `new_queue`), insert one document with the initial fields of
the source, return the store-assigned uid. -/
def enqueue (db : DB) (now : Nat) (q : String) (ns : Option String) (payload : String)
    (mtype : Option Int) (replying_to : Option Nat) : Nat × DB :=
  let db0 := if queueExists db q then db else new_queue db q
  let uid := db0.nextUid
  let msg : Message :=
    { uid := uid, time := now, mtype := mtype, read := false, read_time := none,
      actioned := false, actioned_time := none, replying_to := replying_to,
      message := payload, retry := 0, error := none, nspace := ns, heartbeat := none }
  (uid, setNextUid (setColl db0 q (getColl db0 q ++ [msg])) (uid + 1))

/-- The Python `IndexError` message raised by `messages[-1]` on an empty
list. -/
def indexErrorMsg : String := "list index out of range"

/-- The injected failure of the enqueue half of `reply` (the spec's
"if the enqueue half of reply is made to fail"). -/
def enqueueFailMsg : String := "enqueue failed"

/-- Python `MongoClient.mark_actioned_all`: bulk-update every document whose uid
is in the message uid set to `actioned = True, actioned_time = now`, then
unregister the last message's claim.  On an empty list, `messages[-1]`
raises `IndexError` after the (vacuous) bulk update; the raised error is
returned in the first component. -/
def mark_actioned_all (db : DB) (pm : Option PMState) (now : Nat) (q : String)
    (msgs : List Message) : Option String × DB :=
  let db1 := setColl db q
    (updateAll (fun m => uidIn msgs m.uid)
      (fun m => { m with actioned := true, actioned_time := some now })
      (getColl db q))
  match msgs.getLast? with
  | none => (some indexErrorMsg, db1)
  | some _ => (none, clientUnregister db1 pm now)

/-- Python `MongoClient._rollback_actioned_all`: bulk-update every document whose
uid is in the message uid set to `actioned = False`. -/
def rollback_actioned_all (db : DB) (q : String) (msgs : List Message) : DB :=
  setColl db q
    (updateAll (fun m => uidIn msgs m.uid)
      (fun m => { m with actioned := false })
      (getColl db q))

/-- Python `MongoClient.mark_error`: set the `error` field of the document with
the given uid (a `Message` argument is reduced to its `uid` by the
`isinstance` check first), unregister the claim, return the uid. -/
def mark_error (db : DB) (pm : Option PMState) (now : Nat) (q : String) (uid : Nat)
    (err : String) : Nat × DB :=
  let db1 := setColl db q
    (updateOne (fun m => m.uid == uid)
      (fun m => { m with error := some err }) (getColl db q))
  (uid, clientUnregister db1 pm now)

/-- The mark-actioned loop of `MongoClient.reply`: mark each
(queue, messages) pair actioned in order, stopping at the first raised
error. -/
def replyMarkLoop (pm : Option PMState) (now : Nat) :
    DB → List (String × List Message) → Option String × DB
  | db, [] => (none, db)
  | db, (q, msgs) :: rest =>
    match mark_actioned_all db pm now q msgs with
    | (some e, db1) => (some e, db1)
    | (none, db1) => replyMarkLoop pm now db1 rest

/-- The rollback loop of `MongoClient.reply`: roll back every
(queue, messages) pair of the call. -/
def rollbackAll (work : List (String × List Message)) (db : DB) : DB :=
  work.foldl (fun d p => rollback_actioned_all d p.1 p.2) db

/-- Python `MongoClient.reply`: mark every (queue, messages) pair actioned, then
enqueue the reply payload.  `enqueueFails` is the failure-injection point
for the enqueue half (the store insert raising).  On any raised error the
rollback loop runs over every pair and the original error is re-raised
(returned in the first component). -/
def reply (db : DB) (pm : Option PMState) (now : Nat) (q : String) (ns : Option String)
    (work : List (String × List Message)) (payload : String) (mtype : Option Int)
    (enqueueFails : Bool) : Option String × DB :=
  match replyMarkLoop pm now db work with
  | (some e, db1) => (some e, rollbackAll work db1)
  | (none, db1) =>
    if enqueueFails then (some enqueueFailMsg, rollbackAll work db1)
    else (none, (enqueue db1 now q ns payload mtype none).2)

/-- A signal handler slot as seen by Python's `signal.signal`: the
non-callable constants `SIG_DFL` and `SIG_IGN`, `None` (handler not set
from Python), a Python callable (tagged by an id), or the recording
handler installed by `Protected.__enter__`. -/
inductive Handler where
  | dfl : Handler
  | ign : Handler
  | noneH : Handler
  | callable : Nat → Handler
  | guardRecorder : Handler
deriving DecidableEq

/-- Signal number of `SIGINT`. -/
def SIGINT : Nat := 2

/-- Signal number of `SIGTERM`. -/
def SIGTERM : Nat := 15

/-- Process-level observable state for the signal guard: the installed
handlers for the two termination signals, whether the default action
terminated the process, and the invocations `(handler id, signal)` of
Python-callable handlers. -/
structure ProcState where
  intHandler : Handler
  termHandler : Handler
  terminated : Bool
  calls : List (Nat × Nat)
deriving DecidableEq

/-- The state of a `Protected` guard: the recorded signal (Python's
`self.signal_received`, `None`/`False` meaning none) and the previous
handlers saved by `__enter__` (`self.handlers`). -/
structure ProtectedState where
  signal_received : Option Nat
  savedInt : Handler
  savedTerm : Handler
deriving DecidableEq

/-- Python `Protected.__enter__`: reset `signal_received`, save the previous
handlers of `SIGINT` and `SIGTERM`, and install the recording handler for
both. -/
def protectedEnter (ps : ProcState) : ProcState × ProtectedState :=
  ({ ps with intHandler := Handler.guardRecorder, termHandler := Handler.guardRecorder },
   { signal_received := none, savedInt := ps.intHandler, savedTerm := ps.termHandler })

/-- Delivery of a termination signal to the process: dispatch on the
currently installed handler.  `SIG_DFL` terminates, `SIG_IGN` does
nothing, a Python callable is invoked, the guard's recording handler
(`Protected.handler`) merely records the signal. -/
def deliver (sig : Nat) (ps : ProcState) (pr : ProtectedState) :
    ProcState × ProtectedState :=
  let h := if sig = SIGINT then ps.intHandler else ps.termHandler
  match h with
  | Handler.dfl => ({ ps with terminated := true }, pr)
  | Handler.ign => (ps, pr)
  | Handler.noneH => (ps, pr)
  | Handler.callable id => ({ ps with calls := ps.calls ++ [(id, sig)] }, pr)
  | Handler.guardRecorder => (ps, { pr with signal_received := some sig })

/-- Python `Protected.__exit__`: restore the saved handlers; then, if a signal
was recorded, look up the saved handler for that signal and invoke it
directly — but only when it is callable (`if callable(handler):`);
`SIG_DFL`, `SIG_IGN` and `None` are not callable, so nothing happens for
them. -/
def protectedExit (ps : ProcState) (pr : ProtectedState) : ProcState :=
  let ps1 := { ps with intHandler := pr.savedInt, termHandler := pr.savedTerm }
  match pr.signal_received with
  | none => ps1
  | some sig =>
    match (if sig = SIGINT then pr.savedInt else pr.savedTerm) with
    | Handler.callable id => { ps1 with calls := ps1.calls ++ [(id, sig)] }
    | _ => ps1

/-- The guarded-scope run of claim C8: enter the guard with the given
previous handlers, deliver one termination signal while inside the scope,
and stop just before exit (the mid-scope state). -/
def c8mid (hInt hTerm : Handler) (sig : Nat) : ProcState × ProtectedState :=
  let ps0 : ProcState :=
    { intHandler := hInt, termHandler := hTerm, terminated := false, calls := [] }
  let e := protectedEnter ps0
  deliver sig e.1 e.2

/-- The guarded-scope run of claim C8 continued through
`Protected.__exit__`. -/
def c8final (hInt hTerm : Handler) (sig : Nat) : ProcState :=
  let m := c8mid hInt hTerm sig
  protectedExit m.1 m.2

/-- One recorded call of `RecordQueue`: the attribute name and its
positional/keyword arguments flattened to strings (`(name, args, kwargs)`
in the source). -/
def QCall : Type := String × List String
deriving instance DecidableEq for QCall

/-- Python `RecordQueue`: the ordered history of recorded calls. -/
structure RecordQueue where
  history : List QCall
deriving DecidableEq

/-- Python `RecordQueue.__getattr__` / `_call_logger`: any operation invoked on
the recorder is appended to the history instead of being executed. -/
def rqRecord (r : RecordQueue) (op : QCall) : RecordQueue :=
  { history := r.history ++ [op] }

/-- Invoking a whole sequence of operations on the recorder, in order. -/
def rqRecordAll (r : RecordQueue) (ops : List QCall) : RecordQueue :=
  ops.foldl rqRecord r

/-- Python `RecordQueue.execute`: replay the history, in order, against a client.
The client is an abstract interpretation `QCall → σ → σ` of one
`getattr(client, name)(*args, **kwargs)` call on a client state σ; the
replay thread runs the calls sequentially to completion. -/
def rqExecute {σ : Type} (r : RecordQueue) (client : QCall → σ → σ) (s : σ) : σ :=
  r.history.foldl (fun st op => client op st) s

/-- Written from the spec's words, for comparison: invoking the same
sequence of calls directly on the client, in the same order with the same
arguments. -/
def applyOpsDirect {σ : Type} (client : QCall → σ → σ) (ops : List QCall) (s : σ) : σ :=
  ops.foldl (fun st op => client op st) s

/-- A linearized run of dequeue calls against the shared database: each
caller's dequeue is one atomic store claim (plus its pacemaker writes), so
any concurrent execution is an interleaving given by such a sequence.
Each step carries its wall-clock time and the caller's pacemaker state. -/
def dequeueRun (q : String) (ns : Option String) (mt : MTypeArg) :
    DB → List (Nat × Option PMState) → List (Option Message) × DB
  | db, [] => ([], db)
  | db, s :: rest =>
    let r := clientDequeue db s.2 s.1 q ns mt
    let rst := dequeueRun q ns mt r.2.1 rest
    (r.1 :: rst.1, rst.2)

/-- Concrete unread message used as witness input. -/
def wMsg1 : Message :=
  { uid := 0, time := 10, mtype := some 0, read := false, read_time := none,
    actioned := false, actioned_time := none, replying_to := none, message := "a",
    retry := 0, error := none }

/-- Concrete unread message used as witness input (older than `wMsg1`). -/
def wMsg2 : Message :=
  { uid := 1, time := 5, mtype := some 0, read := false, read_time := none,
    actioned := false, actioned_time := none, replying_to := none, message := "b",
    retry := 0, error := none }

/-- Concrete database used as witness input: one queue holding the two
unread messages. -/
def wDB : DB :=
  { queues := [("q", [wMsg1, wMsg2])], system := [], nextUid := 2 }

/-- Concrete agent record used as witness input. -/
def wAgent : Agent :=
  { uid := 7, time := 0, agent := "worker", heartbeat := 0, alive := true,
    message := none }

/-- Concrete database with one registered agent, used as witness input. -/
def wDB4 : DB :=
  { queues := [("q", [wMsg1])], system := [wAgent], nextUid := 2 }

/-- Concrete pacemaker state with no registered message (witness input). -/
def wPMidle : PMState :=
  { agentId := some 7, name := none, message := none }

/-- Concrete pacemaker state holding a registered message (witness input). -/
def wPMheld : PMState :=
  { agentId := some 7, name := some "q", message := some wMsg1 }

theorem getColl_setColl_self (db : DB) (q : String) (c : List Message) :
    getColl (setColl db q c) q = c := by
  simp [getColl, setColl, List.find?]

theorem getColl_setColl_ne (db : DB) (q q' : String) (c : List Message) (h : q' ≠ q) :
    getColl (setColl db q c) q' = getColl db q' := by
  have hb : ((q, c).1 == q') = false := beq_eq_false_iff_ne.mpr (Ne.symm h)
  simp only [getColl, setColl]
  rw [List.find?_cons_of_neg]
  simp [hb]

theorem getColl_setSystem (db : DB) (s : List Agent) (q : String) :
    getColl (setSystem db s) q = getColl db q := rfl

theorem updateOne_exists_pres {α : Type} (p : α → Bool) (upd : α → α) (P : α → Prop)
    (h : ∀ x, P x → P (upd x)) :
    ∀ l : List α, ∀ x ∈ l, P x → ∃ y ∈ updateOne p upd l, P y := by
  intro l
  induction l with
  | nil => intro x hx; cases hx
  | cons z zs ih =>
    intro x hx hP
    by_cases hz : p z = true
    · simp only [updateOne, hz, if_pos]
      rcases List.mem_cons.mp hx with rfl | hx
      · exact ⟨upd x, List.mem_cons_self _ _, h x hP⟩
      · exact ⟨x, List.mem_cons_of_mem _ hx, hP⟩
    · simp only [updateOne, hz, if_neg, Bool.false_eq_true, not_false_iff]
      rcases List.mem_cons.mp hx with rfl | hx
      · exact ⟨x, List.mem_cons_self _ _, hP⟩
      · rcases ih x hx hP with ⟨y, hy, hPy⟩
        exact ⟨y, List.mem_cons_of_mem _ hy, hPy⟩

theorem selectOldestIdx_isNone (p : Message → Bool) :
    ∀ coll : List Message, selectOldestIdx p coll = none → ∀ x ∈ coll, p x = false := by
  intro coll
  induction coll with
  | nil => intro _ x hx; cases hx
  | cons m ms ih =>
    intro h x hx
    simp only [selectOldestIdx] at h
    rcases hms : selectOldestIdx p ms with _ | ib
    · rw [hms] at h
      by_cases hm : p m = true
      · simp [hm] at h
      · rcases List.mem_cons.mp hx with rfl | hx
        · exact Bool.eq_false_iff.mpr hm
        · exact ih hms x hx
    · rw [hms] at h
      rcases ib with ⟨i, b⟩
      by_cases hc : (p m && decide (m.time ≤ b.time)) = true <;> simp [hc] at h

theorem selectOldestIdx_spec (p : Message → Bool) :
    ∀ (coll : List Message) (i : Nat) (m : Message),
    selectOldestIdx p coll = some (i, m) →
    coll.get? i = some m ∧ p m = true ∧ ∀ x ∈ coll, p x = true → m.time ≤ x.time := by
  intro coll
  induction coll with
  | nil => intro i m h; simp [selectOldestIdx] at h
  | cons z zs ih =>
    intro i m h
    simp only [selectOldestIdx] at h
    rcases hzs : selectOldestIdx p zs with _ | ib
    · rw [hzs] at h
      by_cases hz : p z = true
      · simp only [hz, if_pos] at h
        rcases Option.some.inj h with h'
        rcases Prod.mk.injEq .. ▸ h' with ⟨hi, hm⟩
        subst hi; subst hm
        refine ⟨rfl, hz, ?_⟩
        intro x hx hpx
        rcases List.mem_cons.mp hx with rfl | hx
        · exact Nat.le_refl _
        · exact absurd hpx (by simp [selectOldestIdx_isNone p zs hzs x hx])
      · simp [hz] at h
    · rw [hzs] at h
      rcases ib with ⟨j, b⟩
      rcases ih j b hzs with ⟨hget, hpb, hmin⟩
      by_cases hc : (p z && decide (z.time ≤ b.time)) = true
      · simp only [hc, if_pos] at h
        rcases Option.some.inj h with h'
        rcases Prod.mk.injEq .. ▸ h' with ⟨hi, hm⟩
        subst hi; subst hm
        obtain ⟨hpz, hle⟩ : p z = true ∧ decide (z.time ≤ b.time) = true := by
          simpa using hc
        refine ⟨rfl, hpz, ?_⟩
        intro x hx hpx
        rcases List.mem_cons.mp hx with rfl | hx
        · exact Nat.le_refl _
        · exact Nat.le_trans (of_decide_eq_true hle) (hmin x hx hpx)
      · simp only [hc, if_neg, Bool.false_eq_true, not_false_iff] at h
        rcases Option.some.inj h with h'
        rcases Prod.mk.injEq .. ▸ h' with ⟨hi, hm⟩
        subst hi; subst hm
        refine ⟨by simpa using hget, hpb, ?_⟩
        intro x hx hpx
        rcases List.mem_cons.mp hx with rfl | hx
        · have hnot : ¬ (x.time ≤ b.time) := fun hle => hc (by simp [hpx, hle])
          exact le_of_not_le hnot
        · exact hmin x hx hpx

theorem get_set_decomp {α : Type} :
    ∀ (l : List α) (i : Nat) (x : α), l.get? i = some x →
    ∃ a b, l = a ++ x :: b ∧ a.length = i ∧ ∀ y, l.set i y = a ++ y :: b := by
  intro l
  induction l with
  | nil => intro i x h; simp at h
  | cons z zs ih =>
    intro i x h
    cases i with
    | zero =>
      simp only [List.get?] at h
      rcases Option.some.inj h with rfl
      exact ⟨[], zs, rfl, rfl, fun y => rfl⟩
    | succ j =>
      simp only [List.get?] at h
      rcases ih j x h with ⟨a, b, hl, hlen, hset⟩
      refine ⟨z :: a, b, by simp [hl], by simp [hlen], ?_⟩
      intro y
      simp [List.set, hset y]

theorem eligible_claimUpd (ns : Option String) (mt : MTypeArg) (now : Nat) (m : Message) :
    eligible ns mt (claimUpd now m) = false := by
  simp [eligible, claimUpd]

theorem claimUpd_uid (now : Nat) (m : Message) : (claimUpd now m).uid = m.uid := rfl

theorem updateOne_filter_map_uid (ns : Option String) (mt : MTypeArg)
    (p : Message → Bool) (upd : Message → Message)
    (h1 : ∀ x, (upd x).uid = x.uid)
    (h2 : ∀ x, eligible ns mt (upd x) = eligible ns mt x) :
    ∀ coll : List Message,
    ((updateOne p upd coll).filter (eligible ns mt)).map Message.uid =
      (coll.filter (eligible ns mt)).map Message.uid := by
  intro coll
  induction coll with
  | nil => rfl
  | cons z zs ih =>
    by_cases hz : p z = true
    · simp only [updateOne, hz, if_pos]
      by_cases he : eligible ns mt z = true
      · rw [List.filter_cons_of_pos (by rw [h2 z]; exact he),
            List.filter_cons_of_pos he]
        simp [h1 z]
      · rw [List.filter_cons_of_neg (by rw [h2 z]; simpa using he),
            List.filter_cons_of_neg (by simpa using he)]
    · simp only [updateOne, hz, if_neg, Bool.false_eq_true, not_false_iff]
      by_cases he : eligible ns mt z = true
      · rw [List.filter_cons_of_pos he, List.filter_cons_of_pos he]
        simp [ih]
      · rw [List.filter_cons_of_neg (by simpa using he),
            List.filter_cons_of_neg (by simpa using he)]
        exact ih

theorem selectOldestIdx_isSome_of_filter (p : Message → Bool) (coll : List Message)
    (h : coll.filter p ≠ []) : selectOldestIdx p coll ≠ none := by
  intro hnone
  apply h
  rw [List.filter_eq_nil_iff]
  intro x hx
  simp [selectOldestIdx_isNone p coll hnone x hx]

theorem clientDequeue_of_empty (db : DB) (pm : Option PMState) (now : Nat) (q : String)
    (ns : Option String) (mt : MTypeArg)
    (h : (getColl db q).filter (eligible ns mt) = []) :
    clientDequeue db pm now q ns mt = (none, db, pm) := by
  have hsel : selectOldestIdx (eligible ns mt) (getColl db q) = none := by
    rcases hs : selectOldestIdx (eligible ns mt) (getColl db q) with _ | im
    · rfl
    · rcases im with ⟨i, m⟩
      rcases selectOldestIdx_spec _ _ _ _ hs with ⟨hget, hp, _⟩
      have hmem : m ∈ getColl db q := by
        have := List.get?_eq_some.mp hget
        rcases this with ⟨hlt, hEq⟩
        exact hEq ▸ List.get_mem _ _ _
      have : m ∈ (getColl db q).filter (eligible ns mt) :=
        List.mem_filter.mpr ⟨hmem, hp⟩
      rw [h] at this
      cases this
  simp [clientDequeue, findOneAndUpdateSorted, hsel]

theorem getColl_eq_of_queues (db db' : DB) (h : db.queues = db'.queues) (q : String) :
    getColl db q = getColl db' q := by
  simp [getColl, h]

theorem clientDequeue_of_nonempty (db : DB) (pm : Option PMState) (now : Nat)
    (q : String) (ns : Option String) (mt : MTypeArg)
    (h : (getColl db q).filter (eligible ns mt) ≠ []) :
    ∃ m0 a b, getColl db q = a ++ m0 :: b ∧ eligible ns mt m0 = true ∧
      (∀ x ∈ getColl db q, eligible ns mt x = true → m0.time ≤ x.time) ∧
      (clientDequeue db pm now q ns mt).1 = some (claimUpd now m0) ∧
      ((getColl (clientDequeue db pm now q ns mt).2.1 q).filter
          (eligible ns mt)).map Message.uid =
        ((a ++ claimUpd now m0 :: b).filter (eligible ns mt)).map Message.uid ∧
      ∃ doc ∈ getColl (clientDequeue db pm now q ns mt).2.1 q,
        doc.uid = m0.uid ∧ doc.read = true ∧ doc.read_time = some now := by
  rcases hs : selectOldestIdx (eligible ns mt) (getColl db q) with _ | im
  · exact absurd hs (selectOldestIdx_isSome_of_filter _ _ h)
  · rcases im with ⟨i, m0⟩
    rcases selectOldestIdx_spec _ _ _ _ hs with ⟨hget, hp, hmin⟩
    rcases get_set_decomp _ _ _ hget with ⟨a, b, hdecomp, _, hset⟩
    have hf : findOneAndUpdateSorted (eligible ns mt) (claimUpd now) (getColl db q) =
        (some (claimUpd now m0), a ++ claimUpd now m0 :: b) := by
      simp [findOneAndUpdateSorted, hs, hset]
    have hmem : claimUpd now m0 ∈ a ++ claimUpd now m0 :: b :=
      List.mem_append.mpr (Or.inr (List.mem_cons_self _ _))
    refine ⟨m0, a, b, hdecomp, hp, hmin, ?_, ?_, ?_⟩
    · rcases pm with _ | p
      · simp [clientDequeue, hf]
      · simp [clientDequeue, hf, pm_register_message]
    · rcases pm with _ | p
      · simp [clientDequeue, hf, getColl_setColl_self]
      · simp only [clientDequeue, hf, pm_register_message, pm_update_heartbeat,
          Option.getD_some]
        rw [getColl_setColl_self, getColl_setSystem, getColl_setColl_self]
        exact updateOne_filter_map_uid ns mt
          (fun x => x.uid == (claimUpd now m0).uid)
          (fun x => { x with heartbeat := some now })
          (fun x => rfl) (fun x => by simp [eligible]) _
    · rcases pm with _ | p
      · refine ⟨claimUpd now m0, ?_, rfl, rfl, rfl⟩
        simp only [clientDequeue, hf, getColl_setColl_self]
        exact hmem
      · simp only [clientDequeue, hf, pm_register_message, pm_update_heartbeat,
          Option.getD_some]
        rw [getColl_setColl_self, getColl_setSystem, getColl_setColl_self]
        exact updateOne_exists_pres
          (fun x => x.uid == (claimUpd now m0).uid)
          (fun x => { x with heartbeat := some now })
          (fun doc => doc.uid = m0.uid ∧ doc.read = true ∧ doc.read_time = some now)
          (fun x hx => ⟨hx.1, hx.2.1, hx.2.2⟩)
          _ (claimUpd now m0) hmem ⟨rfl, rfl, rfl⟩

theorem dequeueRun_exclusive (q : String) (ns : Option String) (mt : MTypeArg) :
    ∀ (steps : List (Nat × Option PMState)) (db : DB),
    ((getColl db q).filter (eligible ns mt)).length = steps.length →
    (∀ r ∈ (dequeueRun q ns mt db steps).1, r.isSome = true) ∧
    List.Perm
      ((dequeueRun q ns mt db steps).1.filterMap (fun o => o.map Message.uid))
      (((getColl db q).filter (eligible ns mt)).map Message.uid) := by
  intro steps
  induction steps with
  | nil =>
    intro db hlen
    have hnil : (getColl db q).filter (eligible ns mt) = [] :=
      List.length_eq_zero.mp hlen
    constructor
    · intro r hr; simp [dequeueRun] at hr
    · simp [dequeueRun, hnil]
  | cons s rest ih =>
    intro db hlen
    have hne : (getColl db q).filter (eligible ns mt) ≠ [] := by
      intro h0; rw [h0] at hlen; simp at hlen
    obtain ⟨m0, a, b, hdecomp, hp, hmin, hres, hcoll, -⟩ :=
      clientDequeue_of_nonempty db s.2 s.1 q ns mt hne
    have hE : ((getColl db q).filter (eligible ns mt)).map Message.uid =
        (a.filter (eligible ns mt)).map Message.uid ++
          m0.uid :: (b.filter (eligible ns mt)).map Message.uid := by
      rw [hdecomp, List.filter_append, List.filter_cons_of_pos hp]
      simp
    have hE1 : ((getColl (clientDequeue db s.2 s.1 q ns mt).2.1 q).filter
          (eligible ns mt)).map Message.uid =
        (a.filter (eligible ns mt)).map Message.uid ++
          (b.filter (eligible ns mt)).map Message.uid := by
      rw [hcoll, List.filter_append,
        List.filter_cons_of_neg (by simp [eligible_claimUpd ns mt s.1 m0])]
      simp
    have hperm : List.Perm
        (((getColl db q).filter (eligible ns mt)).map Message.uid)
        (m0.uid :: ((getColl (clientDequeue db s.2 s.1 q ns mt).2.1 q).filter
          (eligible ns mt)).map Message.uid) := by
      rw [hE, hE1]
      exact List.perm_middle
    have hlen1 : ((getColl (clientDequeue db s.2 s.1 q ns mt).2.1 q).filter
        (eligible ns mt)).length = rest.length := by
      have h1 := hperm.length_eq
      rw [List.length_map, List.length_cons, List.length_map] at h1
      rw [hlen] at h1
      simp only [List.length_cons] at h1
      exact (Nat.succ.inj h1).symm
    obtain ⟨ihAll, ihPerm⟩ := ih (clientDequeue db s.2 s.1 q ns mt).2.1 hlen1
    constructor
    · intro r hr
      simp only [dequeueRun] at hr
      rcases List.mem_cons.mp hr with rfl | hr
      · rw [hres]; rfl
      · exact ihAll r hr
    · simp only [dequeueRun]
      rw [hres]
      simp only [List.filterMap_cons, Option.map_some']
      have huid : (claimUpd s.1 m0).uid = m0.uid := rfl
      rw [huid]
      exact List.Perm.trans (List.Perm.cons m0.uid ihPerm) hperm.symm

/-- C1: in any linearized interleaving of N dequeue calls (each call's
claim is the single atomic conditional-update `find_one_and_update` of the
store) against a queue holding exactly N eligible unread messages, every
call returns a message, the returned uids are a permutation of the
eligible uids (so every message goes to exactly one caller), and no uid is
returned to two different callers. -/
theorem c1_dequeue_exclusive (db : DB) (q : String) (ns : Option String)
    (mt : MTypeArg) (steps : List (Nat × Option PMState))
    (hcount : ((getColl db q).filter (eligible ns mt)).length = steps.length) :
    (∀ r ∈ (dequeueRun q ns mt db steps).1, r.isSome = true) ∧
    List.Perm
      ((dequeueRun q ns mt db steps).1.filterMap (fun o => o.map Message.uid))
      (((getColl db q).filter (eligible ns mt)).map Message.uid) ∧
    (((getColl db q).map Message.uid).Nodup →
      ((dequeueRun q ns mt db steps).1.filterMap
        (fun o => o.map Message.uid)).Nodup) := by
  obtain ⟨hall, hperm⟩ := dequeueRun_exclusive q ns mt steps db hcount
  refine ⟨hall, hperm, ?_⟩
  intro hnodup
  have hsub : List.Sublist
      (((getColl db q).filter (eligible ns mt)).map Message.uid)
      ((getColl db q).map Message.uid) :=
    (List.filter_sublist _).map Message.uid
  exact hperm.symm.nodup (hsub.nodup hnodup)

theorem c1_dequeue_exclusive_witness :
    ((getColl wDB "q").filter (eligible none MTypeArg.noneArg)).length =
      ([((20 : Nat), (none : Option PMState)), (21, none)]).length ∧
    ((∀ r ∈ (dequeueRun "q" none MTypeArg.noneArg wDB
        [(20, none), (21, none)]).1, r.isSome = true) ∧
    List.Perm
      ((dequeueRun "q" none MTypeArg.noneArg wDB
        [(20, none), (21, none)]).1.filterMap (fun o => o.map Message.uid))
      (((getColl wDB "q").filter (eligible none MTypeArg.noneArg)).map Message.uid) ∧
    (((getColl wDB "q").map Message.uid).Nodup →
      ((dequeueRun "q" none MTypeArg.noneArg wDB
        [(20, none), (21, none)]).1.filterMap (fun o => o.map Message.uid)).Nodup)) :=
  ⟨by decide,
   c1_dequeue_exclusive wDB "q" none MTypeArg.noneArg [(20, none), (21, none)]
     (by decide)⟩

/-- C2: `dequeue` selects an eligible (`read = false`, namespace filter,
mtype filter) message of minimal `time`, returns it with
`read = true, read_time = now` set, leaves a store document with that uid
marked `read = true, read_time = now`, and returns `none` leaving the
state unchanged when no message matches the filters. -/
theorem c2_dequeue_oldest_eligible (db : DB) (pm : Option PMState) (now : Nat)
    (q : String) (ns : Option String) (mt : MTypeArg) :
    ((getColl db q).filter (eligible ns mt) = [] →
      clientDequeue db pm now q ns mt = (none, db, pm)) ∧
    (∀ m, (clientDequeue db pm now q ns mt).1 = some m →
      ∃ m0 ∈ getColl db q, eligible ns mt m0 = true ∧
        (∀ x ∈ getColl db q, eligible ns mt x = true → m0.time ≤ x.time) ∧
        m = claimUpd now m0 ∧
        ∃ doc ∈ getColl (clientDequeue db pm now q ns mt).2.1 q,
          doc.uid = m0.uid ∧ doc.read = true ∧ doc.read_time = some now) := by
  constructor
  · exact clientDequeue_of_empty db pm now q ns mt
  · intro m hm
    by_cases hf : (getColl db q).filter (eligible ns mt) = []
    · rw [clientDequeue_of_empty db pm now q ns mt hf] at hm
      cases hm
    · obtain ⟨m0, a, b, hdecomp, hp, hmin, hres, -, hdoc⟩ :=
        clientDequeue_of_nonempty db pm now q ns mt hf
      have hmem0 : m0 ∈ getColl db q := by
        rw [hdecomp]
        exact List.mem_append.mpr (Or.inr (List.mem_cons_self _ _))
      have hm' : m = claimUpd now m0 := by
        rw [hres] at hm
        exact (Option.some.inj hm).symm
      exact ⟨m0, hmem0, hp, hmin, hm', hdoc⟩

theorem c2_dequeue_oldest_eligible_witness :
    (clientDequeue wDB none 20 "q" none MTypeArg.noneArg).1 =
      some (claimUpd 20 wMsg2) ∧
    (∃ m0 ∈ getColl wDB "q", eligible none MTypeArg.noneArg m0 = true ∧
      (∀ x ∈ getColl wDB "q", eligible none MTypeArg.noneArg x = true →
        m0.time ≤ x.time) ∧
      claimUpd 20 wMsg2 = claimUpd 20 m0 ∧
      ∃ doc ∈ getColl (clientDequeue wDB none 20 "q" none MTypeArg.noneArg).2.1 "q",
        doc.uid = m0.uid ∧ doc.read = true ∧ doc.read_time = some 20) :=
  ⟨by decide,
   (c2_dequeue_oldest_eligible wDB none 20 "q" none MTypeArg.noneArg).2
     (claimUpd 20 wMsg2) (by decide)⟩

theorem getColl_setNextUid (db : DB) (n : Nat) (q : String) :
    getColl (setNextUid db n) q = getColl db q := rfl

theorem getColl_clientUnregister (db : DB) (pm : Option PMState) (now : Nat)
    (q : String) : getColl (clientUnregister db pm now) q = getColl db q := by
  cases pm <;> rfl

theorem getColl_of_not_exists (db : DB) (q : String) (h : queueExists db q = false) :
    getColl db q = [] := by
  unfold queueExists at h
  rcases hf : db.queues.find? (fun kv => kv.1 == q) with _ | kv
  · simp [getColl, hf]
  · rw [hf] at h
    simp at h

theorem queueExists_setColl_self (db : DB) (q : String) (c : List Message) :
    queueExists (setColl db q c) q = true := by
  simp [queueExists, setColl, List.find?]

theorem updateOne_length {α : Type} (p : α → Bool) (upd : α → α) :
    ∀ l : List α, (updateOne p upd l).length = l.length := by
  intro l
  induction l with
  | nil => rfl
  | cons x xs ih =>
    by_cases hx : p x = true
    · simp [updateOne, hx]
    · simp [updateOne, hx, ih]

theorem updateOne_get_rel {α : Type} (p : α → Bool) (upd : α → α) :
    ∀ (l : List α) (i : Nat) (x : α), l.get? i = some x →
    (updateOne p upd l).get? i = some x ∨
      ((updateOne p upd l).get? i = some (upd x) ∧ p x = true) := by
  intro l
  induction l with
  | nil => intro i x h; simp at h
  | cons z zs ih =>
    intro i x h
    by_cases hz : p z = true
    · cases i with
      | zero =>
        simp only [List.get?] at h
        rcases Option.some.inj h with rfl
        exact Or.inr ⟨by simp [updateOne, hz], hz⟩
      | succ j =>
        simp only [List.get?] at h
        exact Or.inl (by simpa [updateOne, hz] using h)
    · cases i with
      | zero =>
        simp only [List.get?] at h
        rcases Option.some.inj h with rfl
        exact Or.inl (by simp [updateOne, hz])
      | succ j =>
        simp only [List.get?] at h
        rcases ih j x h with h1 | ⟨h1, h2⟩
        · exact Or.inl (by simpa [updateOne, hz] using h1)
        · exact Or.inr ⟨by simpa [updateOne, hz] using h1, h2⟩

theorem uidIn_of_mem (msgs : List Message) (m : Message) (h : m ∈ msgs) :
    uidIn msgs m.uid = true := by
  unfold uidIn
  exact List.elem_eq_true_of_mem (List.mem_map_of_mem Message.uid h)

/-- C6: `enqueue` creates the queue when it does not yet exist, inserts
exactly one new message with initial fields `read = false`,
`read_time = none`, `actioned = false`, `actioned_time = none`,
`retry = 0`, `error = none` and the given namespace, mtype, replying_to
and payload, leaves every other queue unchanged, and returns the
store-assigned uid. -/
theorem c6_enqueue_inserts_initial_message (db : DB) (now : Nat) (q : String)
    (ns : Option String) (payload : String) (mtype : Option Int) (rto : Option Nat) :
    (enqueue db now q ns payload mtype rto).1 = db.nextUid ∧
    queueExists (enqueue db now q ns payload mtype rto).2 q = true ∧
    getColl (enqueue db now q ns payload mtype rto).2 q =
      getColl db q ++
        [{ uid := db.nextUid, time := now, mtype := mtype, read := false,
           read_time := none, actioned := false, actioned_time := none,
           replying_to := rto, message := payload, retry := 0, error := none,
           nspace := ns, heartbeat := none }] ∧
    (∀ q', q' = q ∨
      getColl (enqueue db now q ns payload mtype rto).2 q' = getColl db q') ∧
    (enqueue db now q ns payload mtype rto).2.nextUid = db.nextUid + 1 := by
  by_cases hex : queueExists db q = true
  · refine ⟨by simp [enqueue, hex], ?_, ?_, ?_, by simp [enqueue, hex]; rfl⟩
    · simp only [enqueue, hex, if_pos]
      exact queueExists_setColl_self db q _
    · simp only [enqueue, hex, if_pos, getColl_setNextUid]
      exact getColl_setColl_self db q _
    · intro q'
      by_cases hq : q' = q
      · exact Or.inl hq
      · refine Or.inr ?_
        simp only [enqueue, hex, if_pos, getColl_setNextUid]
        exact getColl_setColl_ne db q q' _ hq
  · have hex' : queueExists db q = false := Bool.eq_false_iff.mpr hex
    have hnil : getColl db q = [] := getColl_of_not_exists db q hex'
    have hnil' : getColl (new_queue db q) q = [] := getColl_setColl_self db q []
    refine ⟨by simp [enqueue, hex, new_queue, setColl], ?_, ?_, ?_,
      by simp [enqueue, hex]; rfl⟩
    · simp only [enqueue, hex, if_neg, Bool.false_eq_true, not_false_iff]
      exact queueExists_setColl_self _ q _
    · simp only [enqueue, hex, if_neg, Bool.false_eq_true, not_false_iff,
        getColl_setNextUid]
      rw [getColl_setColl_self, hnil', hnil]
      rfl
    · intro q'
      by_cases hq : q' = q
      · exact Or.inl hq
      · refine Or.inr ?_
        simp only [enqueue, hex, if_neg, Bool.false_eq_true, not_false_iff,
          getColl_setNextUid]
        rw [getColl_setColl_ne _ q q' _ hq]
        exact getColl_setColl_ne db q q' _ hq

/-- C7: `mark_error` returns the uid and changes at most the `error` field
of the targeted document: the collection keeps its length, every document
agrees with its predecessor on all fields except `error`, documents with a
different uid are completely unchanged, other queues are unchanged, and
the set of dequeue-eligible uids is unchanged for every filter (so the
message does not become claimable again through `mark_error` alone). -/
theorem c7_mark_error_only_error_field (db : DB) (pm : Option PMState) (now : Nat)
    (q : String) (uid : Nat) (err : String) :
    (mark_error db pm now q uid err).1 = uid ∧
    (getColl (mark_error db pm now q uid err).2 q).length = (getColl db q).length ∧
    (∀ i m m', (getColl db q).get? i = some m →
      (getColl (mark_error db pm now q uid err).2 q).get? i = some m' →
      m' = { m with error := m'.error } ∧ (m.uid ≠ uid → m' = m)) ∧
    (∀ q', q' = q ∨
      getColl (mark_error db pm now q uid err).2 q' = getColl db q') ∧
    (∀ ns mt, ((getColl (mark_error db pm now q uid err).2 q).filter
        (eligible ns mt)).map Message.uid =
      ((getColl db q).filter (eligible ns mt)).map Message.uid) := by
  have hcoll : getColl (mark_error db pm now q uid err).2 q =
      updateOne (fun m => m.uid == uid)
        (fun m => { m with error := some err }) (getColl db q) := by
    simp only [mark_error, getColl_clientUnregister]
    exact getColl_setColl_self db q _
  refine ⟨rfl, ?_, ?_, ?_, ?_⟩
  · rw [hcoll]
    exact updateOne_length _ _ _
  · intro i m m' hm hm'
    rw [hcoll] at hm'
    rcases updateOne_get_rel (fun m => m.uid == uid)
        (fun m => { m with error := some err }) (getColl db q) i m hm with h1 | ⟨h1, h2⟩
    · rw [h1] at hm'
      rcases Option.some.inj hm' with rfl
      exact ⟨rfl, fun _ => rfl⟩
    · rw [h1] at hm'
      rcases Option.some.inj hm' with rfl
      refine ⟨rfl, ?_⟩
      intro hne
      exact absurd (beq_iff_eq.mp h2) hne
  · intro q'
    by_cases hq : q' = q
    · exact Or.inl hq
    · refine Or.inr ?_
      simp only [mark_error, getColl_clientUnregister]
      exact getColl_setColl_ne db q q' _ hq
  · intro ns mt
    rw [hcoll]
    exact updateOne_filter_map_uid ns mt (fun m => m.uid == uid)
      (fun m => { m with error := some err }) (fun x => rfl)
      (fun x => by simp [eligible]) _

theorem c7_mark_error_only_error_field_witness :
    (getColl wDB "q").get? 0 = some wMsg1 ∧
    (getColl (mark_error wDB (some wPMidle) 30 "q" 0 "boom").2 "q").get? 0 =
      some { wMsg1 with error := some "boom" } ∧
    (({ wMsg1 with error := some "boom" } : Message) =
      { wMsg1 with
        error := ({ wMsg1 with error := some "boom" } : Message).error } ∧
      (wMsg1.uid ≠ 0 → ({ wMsg1 with error := some "boom" } : Message) = wMsg1)) :=
  ⟨by decide, by decide,
   (c7_mark_error_only_error_field wDB (some wPMidle) 30 "q" 0 "boom").2.2.1 0 wMsg1
     { wMsg1 with error := some "boom" } (by decide) (by decide)⟩

/-- C5: on a non-empty message list, `mark_actioned_all` raises no error,
sets `actioned = true` and `actioned_time = now` on every document whose
uid is that of a message in the list (the bulk uid-set update), keeps
every document whose uid is not in the set, and unregisters the claim on
the Agent record when a pacemaker is attached. -/
theorem c5_mark_actioned_all_bulk (db : DB) (pm : Option PMState) (now : Nat)
    (q : String) (msgs : List Message) (h : msgs ≠ []) :
    (mark_actioned_all db pm now q msgs).1 = none ∧
    (∀ m ∈ msgs, ∀ doc ∈ getColl (mark_actioned_all db pm now q msgs).2 q,
      doc.uid = m.uid → doc.actioned = true ∧ doc.actioned_time = some now) ∧
    (∀ doc ∈ getColl db q, uidIn msgs doc.uid = false →
      doc ∈ getColl (mark_actioned_all db pm now q msgs).2 q) ∧
    (∀ p, pm = some p →
      (mark_actioned_all db pm now q msgs).2.system =
        updateAgentOne db.system p.agentId
          (fun a => { a with message := none, heartbeat := now })) := by
  obtain ⟨last, hlast⟩ :=
    Option.isSome_iff_exists.mp (List.getLast?_isSome.mpr h)
  have hcoll : getColl (mark_actioned_all db pm now q msgs).2 q =
      updateAll (fun m => uidIn msgs m.uid)
        (fun m => { m with actioned := true, actioned_time := some now })
        (getColl db q) := by
    simp only [mark_actioned_all, hlast, getColl_clientUnregister]
    exact getColl_setColl_self db q _
  refine ⟨by simp [mark_actioned_all, hlast], ?_, ?_, ?_⟩
  · intro m hm doc hdoc hu
    rw [hcoll] at hdoc
    rcases List.mem_map.mp hdoc with ⟨x, hx, rfl⟩
    by_cases hp : uidIn msgs x.uid = true
    · simp [hp]
    · simp only [hp, Bool.false_eq_true, if_neg, not_false_iff] at hu ⊢
      rw [hu] at hp
      exact absurd (uidIn_of_mem msgs m hm) hp
  · intro doc hdoc hnin
    rw [hcoll]
    have := List.mem_map_of_mem
      (fun x => if uidIn msgs x.uid then
        { x with actioned := true, actioned_time := some now } else x) hdoc
    simpa [updateAll, hnin] using this
  · intro p hp
    subst hp
    simp only [mark_actioned_all, hlast]
    rfl

theorem c5_mark_actioned_all_bulk_witness :
    ([wMsg1] : List Message) ≠ [] ∧
    (mark_actioned_all wDB (some wPMidle) 40 "q" [wMsg1]).1 = none ∧
    (∀ m ∈ [wMsg1], ∀ doc ∈ getColl (mark_actioned_all wDB (some wPMidle) 40 "q"
        [wMsg1]).2 "q",
      doc.uid = m.uid → doc.actioned = true ∧ doc.actioned_time = some 40) :=
  ⟨by decide,
   (c5_mark_actioned_all_bulk wDB (some wPMidle) 40 "q" [wMsg1] (by decide)).1,
   (c5_mark_actioned_all_bulk wDB (some wPMidle) 40 "q" [wMsg1] (by decide)).2.1⟩

/-- C10: `mark_actioned_all` requires a non-empty list: on an empty list
the trailing `messages[-1]` raises `IndexError` (after the vacuous bulk
update), and on a non-empty list no error is raised. -/
theorem c10_mark_actioned_all_empty_raises (db : DB) (pm : Option PMState)
    (now : Nat) (q : String) (msgs : List Message) :
    (mark_actioned_all db pm now q msgs).1 =
      cond msgs.isEmpty (some indexErrorMsg) none := by
  cases msgs with
  | nil => rfl
  | cons a as =>
    obtain ⟨last, hlast⟩ := Option.isSome_iff_exists.mp
      (List.getLast?_isSome.mpr (List.cons_ne_nil a as))
    simp [mark_actioned_all, hlast]

theorem rollback_establishes (db : DB) (q : String) (msgs : List Message) :
    ∀ doc ∈ getColl (rollback_actioned_all db q msgs) q,
      uidIn msgs doc.uid = true → doc.actioned = false := by
  intro doc hdoc hin
  rw [rollback_actioned_all, getColl_setColl_self] at hdoc
  rcases List.mem_map.mp hdoc with ⟨x, hx, rfl⟩
  by_cases hp : uidIn msgs x.uid = true
  · simp [hp]
  · simp only [hp, Bool.false_eq_true, if_neg, not_false_iff] at hin

theorem rollback_preserves (S : List Message) (mq : String) (db : DB) (q' : String)
    (msgs' : List Message)
    (h : ∀ doc ∈ getColl db mq, uidIn S doc.uid = true → doc.actioned = false) :
    ∀ doc ∈ getColl (rollback_actioned_all db q' msgs') mq,
      uidIn S doc.uid = true → doc.actioned = false := by
  intro doc hdoc hin
  by_cases heq : mq = q'
  · subst heq
    rw [rollback_actioned_all, getColl_setColl_self] at hdoc
    rcases List.mem_map.mp hdoc with ⟨x, hx, rfl⟩
    by_cases hp : uidIn msgs' x.uid = true
    · simp [hp]
    · simp only [hp, Bool.false_eq_true, if_neg, not_false_iff] at hin ⊢
      exact h x hx hin
  · rw [rollback_actioned_all, getColl_setColl_ne _ _ _ _ heq] at hdoc
    exact h doc hdoc hin

theorem rollbackAll_cons (hd : String × List Message)
    (rest : List (String × List Message)) (db : DB) :
    rollbackAll (hd :: rest) db =
      rollbackAll rest (rollback_actioned_all db hd.1 hd.2) := rfl

theorem rollbackAll_preserves (S : List Message) (mq : String) :
    ∀ (work : List (String × List Message)) (db : DB),
    (∀ doc ∈ getColl db mq, uidIn S doc.uid = true → doc.actioned = false) →
    ∀ doc ∈ getColl (rollbackAll work db) mq,
      uidIn S doc.uid = true → doc.actioned = false := by
  intro work
  induction work with
  | nil => intro db h; exact h
  | cons hd rest ih =>
    intro db h
    rw [rollbackAll_cons]
    exact ih _ (rollback_preserves S mq db hd.1 hd.2 h)

theorem rollbackAll_resets :
    ∀ (work : List (String × List Message)) (db : DB),
    ∀ p ∈ work, ∀ doc ∈ getColl (rollbackAll work db) p.1,
      uidIn p.2 doc.uid = true → doc.actioned = false := by
  intro work
  induction work with
  | nil => intro db p hp; cases hp
  | cons hd rest ih =>
    intro db p hp
    rw [rollbackAll_cons]
    rcases List.mem_cons.mp hp with rfl | hp
    · exact rollbackAll_preserves p.2 p.1 rest (rollback_actioned_all db p.1 p.2)
        (rollback_establishes db p.1 p.2)
    · exact ih (rollback_actioned_all db hd.1 hd.2) p hp

theorem replyMarkLoop_no_error (pm : Option PMState) (now : Nat) :
    ∀ (work : List (String × List Message)) (db : DB),
    (∀ p ∈ work, p.2 ≠ []) → (replyMarkLoop pm now db work).1 = none := by
  intro work
  induction work with
  | nil => intro db _; rfl
  | cons hd rest ih =>
    intro db h
    rcases hd with ⟨hq, hmsgs⟩
    have hne : hmsgs ≠ [] := h (hq, hmsgs) (List.mem_cons_self _ _)
    obtain ⟨last, hlast⟩ :=
      Option.isSome_iff_exists.mp (List.getLast?_isSome.mpr hne)
    simp only [replyMarkLoop, mark_actioned_all, hlast]
    exact ih _ (fun p hp => h p (List.mem_cons_of_mem _ hp))

/-- C3: whenever `reply` raises (in particular when the final enqueue is
made to fail after the marks succeeded), the rollback loop has run: in the
resulting store every message of every (queue, messages) pair passed in
has `actioned = false` on its document, and the original error is
re-raised to the caller; with the enqueue failure injected and all pairs
non-empty, the raised error is exactly the enqueue failure. -/
theorem c3_reply_rolls_back_on_failure (db : DB) (pm : Option PMState) (now : Nat)
    (q : String) (ns : Option String) (work : List (String × List Message))
    (payload : String) (mtype : Option Int) (ef : Bool) :
    ((reply db pm now q ns work payload mtype ef).1.isSome = true →
      ∀ p ∈ work, ∀ m ∈ p.2,
        ∀ doc ∈ getColl (reply db pm now q ns work payload mtype ef).2 p.1,
          doc.uid = m.uid → doc.actioned = false) ∧
    (ef = true → (∀ p ∈ work, p.2 ≠ []) →
      (reply db pm now q ns work payload mtype ef).1 = some enqueueFailMsg) := by
  constructor
  · intro hsome p hp m hm doc hdoc hu
    have hreset : ∀ (db1 : DB), doc ∈ getColl (rollbackAll work db1) p.1 →
        doc.actioned = false := by
      intro db1 hd
      refine rollbackAll_resets work db1 p hp doc hd ?_
      rw [hu]
      exact uidIn_of_mem p.2 m hm
    rcases hml : replyMarkLoop pm now db work with ⟨e, db1⟩
    cases e with
    | some err =>
      rw [reply, hml] at hdoc
      exact hreset db1 hdoc
    | none =>
      rw [reply, hml] at hdoc hsome
      cases ef with
      | true => exact hreset db1 (by simpa using hdoc)
      | false => simp at hsome
  · intro hef hne
    rcases hml : replyMarkLoop pm now db work with ⟨e, db1⟩
    have he : e = none := by
      have := replyMarkLoop_no_error pm now work db hne
      rw [hml] at this
      exact this
    subst he
    subst hef
    rw [reply, hml]
    rfl

theorem c3_reply_rolls_back_on_failure_witness :
    (reply wDB none 50 "out" none [("q", [wMsg1])] "p" none true).1.isSome = true ∧
    (∀ doc ∈ getColl (reply wDB none 50 "out" none [("q", [wMsg1])] "p" none
        true).2 "q", doc.uid = wMsg1.uid → doc.actioned = false) ∧
    (reply wDB none 50 "out" none [("q", [wMsg1])] "p" none true).1 =
      some enqueueFailMsg :=
  ⟨by decide,
   fun doc hdoc hu =>
     (c3_reply_rolls_back_on_failure wDB none 50 "out" none [("q", [wMsg1])] "p"
       none true).1 (by decide) ("q", [wMsg1]) (List.mem_cons_self _ _) wMsg1
       (List.mem_cons_self _ _) doc hdoc hu,
   (c3_reply_rolls_back_on_failure wDB none 50 "out" none [("q", [wMsg1])] "p"
     none true).2 rfl (by decide)⟩

/-- C4 counterexample: a heartbeat tick (`update_heartbeat`) with no
registered message leaves the database — in particular the Agent record's
heartbeat, still 0 rather than the current time 5 — completely unchanged,
and even with a registered message the Agent record keeps heartbeat 0: the
tick never refreshes the Agent record, contrary to the claim. -/
theorem c4_tick_does_not_refresh_agent :
    pm_update_heartbeat wDB4 wPMidle 5 = wDB4 ∧
    (pm_update_heartbeat wDB4 wPMidle 5).system.map Agent.heartbeat = [0] ∧
    (pm_update_heartbeat wDB4 wPMheld 5).system.map Agent.heartbeat = [0] ∧
    (5 : Nat) ≠ 0 := by
  refine ⟨rfl, rfl, ?_, by decide⟩
  rfl

/-- C4 (amended): each tick refreshes only the registered message's
`heartbeat` field in its queue collection; it never touches the `system`
collection (the Agent record), and when no message is registered it
performs no store update at all. -/
theorem c4_tick_refreshes_message_only (db : DB) (pm : PMState) (now : Nat) :
    (pm_update_heartbeat db pm now).system = db.system ∧
    (pm.message = none → pm_update_heartbeat db pm now = db) ∧
    (∀ m n, pm.message = some m → pm.name = some n →
      getColl (pm_update_heartbeat db pm now) n =
        updateOne (fun x => x.uid == m.uid)
          (fun x => { x with heartbeat := some now }) (getColl db n)) := by
  refine ⟨?_, ?_, ?_⟩
  · cases hm : pm.message with
    | none => simp [pm_update_heartbeat, hm]
    | some m => simp only [pm_update_heartbeat, hm]; rfl
  · intro h
    simp [pm_update_heartbeat, h]
  · intro m n hm hn
    simp only [pm_update_heartbeat, hm, hn, Option.getD_some]
    exact getColl_setColl_self db n _

theorem c4_tick_refreshes_message_only_witness :
    wPMheld.message = some wMsg1 ∧ wPMheld.name = some "q" ∧
    getColl (pm_update_heartbeat wDB4 wPMheld 5) "q" =
      updateOne (fun x => x.uid == wMsg1.uid)
        (fun x => { x with heartbeat := some 5 }) (getColl wDB4 "q") :=
  ⟨rfl, rfl,
   (c4_tick_refreshes_message_only wDB4 wPMheld 5).2.2 wMsg1 "q" rfl rfl⟩

/-- C8 counterexample: with previous handlers `SIG_DFL` (the ordinary
default that terminates the process), a `SIGTERM` delivered inside the
guarded scope is recorded, yet after the scope exits no termination has
occurred and no handler was invoked — `Protected.__exit__` only
re-delivers to a *callable* previous handler, so for `SIG_DFL` the
recorded termination signal is dropped and termination never happens,
contrary to the claim's "for every possible previous handler". -/
theorem c8_sig_dfl_drops_recorded_signal :
    (c8mid Handler.dfl Handler.dfl SIGTERM).2.signal_received = some SIGTERM ∧
    (c8mid Handler.dfl Handler.dfl SIGTERM).1.terminated = false ∧
    (c8final Handler.dfl Handler.dfl SIGTERM).terminated = false ∧
    (c8final Handler.dfl Handler.dfl SIGTERM).calls = [] ∧
    (c8final Handler.dfl Handler.dfl SIGTERM).termHandler = Handler.dfl := by
  refine ⟨rfl, rfl, rfl, rfl, rfl⟩

/-- C8 (amended): on exit the previous handlers are always restored, a
termination signal delivered inside the scope is never acted on during the
scope (only recorded), and the recorded signal is re-delivered after exit
precisely when the previous handler for that signal is a Python callable;
for `SIG_DFL`, `SIG_IGN` or `None` previous handlers it is dropped. -/
theorem c8_guard_restores_and_redelivers_callable (hInt hTerm : Handler) (sig : Nat)
    (hsig : sig = SIGINT ∨ sig = SIGTERM) :
    (c8mid hInt hTerm sig).1.terminated = false ∧
    (c8mid hInt hTerm sig).2.signal_received = some sig ∧
    (c8final hInt hTerm sig).intHandler = hInt ∧
    (c8final hInt hTerm sig).termHandler = hTerm ∧
    (c8final hInt hTerm sig).terminated = false ∧
    (c8final hInt hTerm sig).calls =
      (match (if sig = SIGINT then hInt else hTerm) with
       | Handler.callable id => [(id, sig)]
       | _ => []) := by
  rcases hsig with rfl | rfl
  · cases hInt <;> cases hTerm <;>
      refine ⟨rfl, rfl, rfl, rfl, rfl, rfl⟩
  · cases hInt <;> cases hTerm <;>
      refine ⟨rfl, rfl, rfl, rfl, rfl, rfl⟩

theorem c8_guard_restores_and_redelivers_callable_witness :
    (SIGTERM = SIGINT ∨ SIGTERM = SIGTERM) ∧
    (c8mid (Handler.callable 3) (Handler.callable 4) SIGTERM).1.terminated =
      false ∧
    (c8final (Handler.callable 3) (Handler.callable 4) SIGTERM).termHandler =
      Handler.callable 4 ∧
    (c8final (Handler.callable 3) (Handler.callable 4) SIGTERM).calls =
      [(4, SIGTERM)] :=
  ⟨Or.inr rfl,
   (c8_guard_restores_and_redelivers_callable (Handler.callable 3)
     (Handler.callable 4) SIGTERM (Or.inr rfl)).1,
   (c8_guard_restores_and_redelivers_callable (Handler.callable 3)
     (Handler.callable 4) SIGTERM (Or.inr rfl)).2.2.2.1,
   (c8_guard_restores_and_redelivers_callable (Handler.callable 3)
     (Handler.callable 4) SIGTERM (Or.inr rfl)).2.2.2.2.2⟩

/-- C9: every operation invoked on the recorder is appended, unexecuted,
to the ordered history, and `execute` replays exactly that history against
the client: for any operation sequence, recording then executing yields
the same client-state evolution as invoking the operations directly on the
client, in the same order with the same arguments. -/
theorem c9_record_then_execute_equals_direct {σ : Type} (ops : List QCall)
    (client : QCall → σ → σ) (s : σ) :
    (rqRecordAll { history := [] } ops).history = ops ∧
    rqExecute (rqRecordAll { history := [] } ops) client s =
      applyOpsDirect client ops s := by
  have hgen : ∀ (ops : List QCall) (h : List QCall),
      (rqRecordAll { history := h } ops).history = h ++ ops := by
    intro ops
    induction ops with
    | nil => intro h; simp [rqRecordAll]
    | cons op rest ih =>
      intro h
      simp only [rqRecordAll, List.foldl_cons] at ih ⊢
      rw [show rqRecord { history := h } op = { history := h ++ [op] } from rfl]
      rw [ih (h ++ [op])]
      simp
  have hhist : (rqRecordAll { history := [] } ops).history = ops := by
    rw [hgen ops []]
    simp
  refine ⟨hhist, ?_⟩
  rw [rqExecute, hhist]
  rfl
